import Mathlib

/-!
Verification of the `kea-disposables` plugin (`src/index.ts`).

The plugin attaches a `DisposablesManager` (`add` / `dispose`) to each kea
logic ("owner"), stores per-owner registries in a plugin-context map
`logicDisposables : Map<string, LogicDisposables>`, installs an `afterMount`
hook that creates a fresh registry record, and a `beforeUnmount` hook that
drains and deletes the record on the final unmount (guarded by
`!logic.isMounted()`).

We model a single owner.  The plugin-context entry for the owner's
`pathString` becomes `record : Option LogicDisposables`; the host framework's
mount counter becomes `mountCount`.  The host (kea) dispatches the
`afterMount` event only when the owner actually becomes mounted (mount-count
transition 0 to 1), and signals each deactivation claim, exposing the
synchronous `logic.isMounted()` query (true iff the count after the decrement
is still positive), which is exactly the guard the `beforeUnmount` callback
in the source consults.

JavaScript callbacks are modelled semantically: a teardown carries an
identity and whether invoking it throws; a setup carries an identity, whether
it throws, and the teardown it returns.  Every observable effect (a setup
invocation, a teardown invocation, a `console.error` log record) is recorded
in an event trace.
-/

namespace KeaDisposables

/-- One `console.error`-visible or callback-invocation event. -/
inductive Event where
  | setupRun (id : Nat)
  | teardownInvoked (id : Nat)
  | logError (msg : String)
deriving DecidableEq, Repr

/-- A `DisposableFunction` (teardown callback): identity plus whether calling
it throws. -/
structure Teardown where
  id : Nat
  throws : Bool
deriving DecidableEq, Repr

/-- A `SetupFunction`: identity, whether calling it throws, and the teardown
it returns when it does not throw. -/
structure SetupFn where
  id : Nat
  throws : Bool
  teardown : Teardown
deriving DecidableEq, Repr

/-- The `try { cleanup() } catch (error) { console.error(msg, error) }`
pattern the source wraps around every teardown invocation: the teardown is
invoked, and if it throws, one log record is emitted and the failure is
swallowed. -/
def invokeTeardownCaught (t : Teardown) (msg : String) : List Event :=
  if t.throws then [.teardownInvoked t.id, .logError msg] else [.teardownInvoked t.id]

/-- Insertion-ordered association list modelling a JavaScript `Map` with
string keys (the `disposables` map of one registry). -/
abbrev DMap := List (String × Teardown)

/-- `Map.prototype.has`. -/
def mapHas (m : DMap) (k : String) : Bool := m.any (fun p => p.1 == k)

/-- `Map.prototype.get`. -/
def mapGet (m : DMap) (k : String) : Option Teardown :=
  (m.find? (fun p => p.1 == k)).map (fun p => p.2)

/-- `Map.prototype.set`: updates an existing key in place (keeping its
insertion-order position) or appends a new entry. -/
def mapSet (m : DMap) (k : String) (v : Teardown) : DMap :=
  if mapHas m k then m.map (fun p => if p.1 == k then (k, v) else p) else m ++ [(k, v)]

/-- `Map.prototype.delete` restricted to its effect on the map. -/
def mapDelete (m : DMap) (k : String) : DMap := m.filter (fun p => p.1 != k)

/-- The per-owner registry record (`LogicDisposables` in the source; the
`logic` back-reference field is dropped since we model one owner). -/
structure LogicDisposables where
  disposables : DMap
  keyCounter : Nat
deriving DecidableEq, Repr

/-- The state relevant to one owner: its mount count (kept by the host
framework) and its entry in the plugin context's `logicDisposables` map
(`none` when `logicDisposables.get(pathString)` is `undefined`). -/
structure OwnerState where
  mountCount : Nat
  record : Option LogicDisposables
deriving DecidableEq, Repr

/-- The auto-generated key `` `__auto_${counter}` ``. -/
def autoKey (n : Nat) : String := "__auto_" ++ Nat.repr n

/-- JS truthiness of the optional `key` argument, as tested by the source's
replacement guard `if (key && ...)`: `undefined` and the empty string are
falsy, every other string is truthy. -/
def keyTruthy : Option String → Bool
  | none => false
  | some k => !(k == "")

/-- The `add` operation of the `DisposablesManager`, translated from the
source.  Returns the new state, the emitted events, and whether the call
threw (the initial `setup()` is not wrapped in a try/catch, so its failure
propagates).  When the owner has no registry record, `add` is a no-op.
The replacement branch is guarded by `if (key && ...)`, a JS truthiness
test on `key`, so it is skipped for the empty-string key. -/
def add (st : OwnerState) (setup : SetupFn) (key : Option String) :
    OwnerState × List Event × Bool :=
  match st.record with
  | none => (st, [], false)
  | some ld =>
    let dk : String × Nat :=
      match key with
      | some k => (k, ld.keyCounter)
      | none => (autoKey ld.keyCounter, ld.keyCounter + 1)
    let prevEvents : List Event :=
      if keyTruthy key && mapHas ld.disposables dk.1 then
        match mapGet ld.disposables dk.1 with
        | some prev =>
            invokeTeardownCaught prev
              ("[KEA] Previous disposable cleanup failed for key " ++ dk.1)
        | none => []
      else []
    if setup.throws then
      ({ st with record := some ⟨ld.disposables, dk.2⟩ },
       prevEvents ++ [.setupRun setup.id], true)
    else
      ({ st with record := some ⟨mapSet ld.disposables dk.1 setup.teardown, dk.2⟩ },
       prevEvents ++ [.setupRun setup.id], false)

/-- The `dispose` operation of the `DisposablesManager`, translated from the
source.  Returns the new state, the emitted events, and the boolean result. -/
def dispose (st : OwnerState) (key : String) : OwnerState × List Event × Bool :=
  match st.record with
  | none => (st, [], false)
  | some ld =>
    if mapHas ld.disposables key then
      let evs : List Event :=
        match mapGet ld.disposables key with
        | some t => invokeTeardownCaught t ("[KEA] Manual dispose failed for key " ++ key)
        | none => []
      ({ st with record := some ⟨mapDelete ld.disposables key, ld.keyCounter⟩ },
       evs, true)
    else (st, [], false)

/-- The `logicData.disposables.forEach` drain loop of the `beforeUnmount`
hook: every teardown is invoked in insertion order, each inside try/catch. -/
def drainEvents : DMap → List Event
  | [] => []
  | (_, t) :: rest => invokeTeardownCaught t "[KEA] Disposable failed" ++ drainEvents rest

/-- The `afterMount` hook body: installs a fresh registry record with an
empty map and a zeroed auto-key counter. -/
def afterMountHook (st : OwnerState) : OwnerState :=
  { st with record := some ⟨[], 0⟩ }

/-- The `beforeUnmount` hook body: drains and deletes the record only when
`logic.isMounted()` is false. -/
def beforeUnmountHook (st : OwnerState) (isMounted : Bool) : OwnerState × List Event :=
  match st.record with
  | some ld =>
    if isMounted then (st, [])
    else ({ st with record := none }, drainEvents ld.disposables)
  | none => (st, [])

/-- One activation claim (`logic.mount()`): the host increments the mount
count and dispatches `afterMount` when the owner becomes mounted. -/
def mountOwner (st : OwnerState) : OwnerState :=
  let st1 : OwnerState := { st with mountCount := st.mountCount + 1 }
  if st.mountCount = 0 then afterMountHook st1 else st1

/-- One deactivation claim (`logic.unmount()`): the host decrements the mount
count and signals `beforeUnmount`, with `logic.isMounted()` answering whether
the count is still positive. -/
def unmountOwner (st : OwnerState) : OwnerState × List Event :=
  let st1 : OwnerState := { st with mountCount := st.mountCount - 1 }
  beforeUnmountHook st1 (decide (0 < st1.mountCount))

/-- The operations a client or the host can perform on one owner. -/
inductive Op where
  | add (setup : SetupFn) (key : Option String)
  | dispose (key : String)
  | mountOwner
  | unmountOwner
deriving DecidableEq, Repr

/-- One step of the system. -/
def step (st : OwnerState) : Op → OwnerState × List Event
  | .add s k => ((add st s k).1, (add st s k).2.1)
  | .dispose k => ((dispose st k).1, (dispose st k).2.1)
  | .mountOwner => (mountOwner st, [])
  | .unmountOwner => unmountOwner st

/-- Running a sequence of operations, accumulating the event trace. -/
def runOps (st : OwnerState) : List Op → OwnerState × List Event
  | [] => (st, [])
  | op :: ops =>
    ((runOps (step st op).1 ops).1, (step st op).2 ++ (runOps (step st op).1 ops).2)

/-- Events that are teardown invocations. -/
def isTeardownEvent : Event → Bool
  | .teardownInvoked _ => true
  | _ => false

/-- Events that are log records. -/
def isLogEvent : Event → Bool
  | .logError _ => true
  | _ => false

end KeaDisposables

namespace KeaDisposables

/-! Helper lemmas about the `Map` model. -/

theorem mapHas_of_mapGet {m : DMap} {k : String} {t : Teardown}
    (h : mapGet m k = some t) : mapHas m k = true := by
  induction m with
  | nil => simp [mapGet] at h
  | cons p rest ih =>
    by_cases hk : p.1 = k
    · simp [mapHas, hk]
    · simp only [mapGet, List.find?] at h ⊢
      rw [show (p.1 == k) = false by simp [hk]] at h
      simp only [mapHas, List.any_cons]
      rw [show (p.1 == k) = false by simp [hk]]
      simpa [mapHas, mapGet] using ih h

theorem mapGet_of_not_mapHas {m : DMap} {k : String}
    (h : mapHas m k = false) : mapGet m k = none := by
  induction m with
  | nil => rfl
  | cons p rest ih =>
    simp only [mapHas, List.any_cons, Bool.or_eq_false_iff] at h
    simp only [mapGet, List.find?, h.1, ih h.2]
    simpa [mapGet] using ih h.2

theorem mapGet_mapSet (m : DMap) (k : String) (v : Teardown) :
    mapGet (mapSet m k v) k = some v := by
  by_cases h : mapHas m k = true
  · simp only [mapSet, h, if_true]
    induction m with
    | nil => simp [mapHas] at h
    | cons p rest ih =>
      by_cases hk : p.1 = k
      · simp [mapGet, List.find?, hk]
      · simp only [mapHas, List.any_cons] at h
        rw [show (p.1 == k) = false by simp [hk]] at h
        simp only [Bool.false_or] at h
        simp only [List.map_cons]
        rw [show (if (p.1 == k) = true then (k, v) else p) = p by simp [hk]]
        simp only [mapGet, List.find?]
        rw [show (p.1 == k) = false by simp [hk]]
        simpa [mapGet] using ih h
  · simp only [mapSet, h, if_false]
    rw [Bool.not_eq_true] at h
    induction m with
    | nil => simp [mapGet, List.find?]
    | cons p rest ih =>
      simp only [mapHas, List.any_cons, Bool.or_eq_false_iff] at h
      simp only [List.cons_append, mapGet, List.find?, h.1]
      simpa [mapGet] using ih (by simp [mapHas, h.2])

theorem mapSet_of_not_mapHas {m : DMap} {k : String} (v : Teardown)
    (h : mapHas m k = false) : mapSet m k v = m ++ [(k, v)] := by
  simp [mapSet, h]

theorem mapHas_mapDelete (m : DMap) (k : String) :
    mapHas (mapDelete m k) k = false := by
  induction m with
  | nil => rfl
  | cons p rest ih =>
    by_cases hk : p.1 = k
    · simpa [mapDelete, List.filter, hk] using ih
    · simp only [mapDelete, List.filter] at ih ⊢
      rw [show (p.1 != k) = true by simp [hk]]
      simp only [mapHas, List.any_cons] at ih ⊢
      rw [show (p.1 == k) = false by simp [hk]]
      simp only [Bool.false_or]
      exact ih

theorem mapHas_append (m1 m2 : DMap) (k : String) :
    mapHas (m1 ++ m2) k = (mapHas m1 k || mapHas m2 k) := by
  simp [mapHas]

/-! Helper lemmas about the drain loop. -/

theorem drainEvents_append (m1 m2 : DMap) :
    drainEvents (m1 ++ m2) = drainEvents m1 ++ drainEvents m2 := by
  induction m1 with
  | nil => rfl
  | cons p rest ih => simp [drainEvents, ih]

theorem drainEvents_filter_teardown (m : DMap) :
    (drainEvents m).filter isTeardownEvent =
      m.map (fun p => Event.teardownInvoked p.2.id) := by
  induction m with
  | nil => rfl
  | cons p rest ih =>
    by_cases ht : p.2.throws
    · simp [drainEvents, invokeTeardownCaught, ht, List.filter, isTeardownEvent, ih]
    · simp [drainEvents, invokeTeardownCaught, ht, List.filter, isTeardownEvent, ih]

theorem drainEvents_count_log (m : DMap) :
    (drainEvents m).countP isLogEvent = m.countP (fun p => p.2.throws) := by
  induction m with
  | nil => rfl
  | cons p rest ih =>
    by_cases ht : p.2.throws
    · simp [drainEvents, invokeTeardownCaught, ht, List.countP_append,
        List.countP_cons, isLogEvent, ih]
    · simp [drainEvents, invokeTeardownCaught, ht, List.countP_append,
        List.countP_cons, isLogEvent, ih]

/-! Helper lemmas about running operation sequences. -/

theorem runOps_append (st : OwnerState) (l1 l2 : List Op) :
    runOps st (l1 ++ l2) =
      ((runOps (runOps st l1).1 l2).1,
       (runOps st l1).2 ++ (runOps (runOps st l1).1 l2).2) := by
  induction l1 generalizing st with
  | nil => simp [runOps]
  | cons op ops ih => simp [runOps, ih, List.append_assoc]

theorem step_unmountOwner_intermediate (c : Nat) (ld : LogicDisposables) :
    step ⟨c + 2, some ld⟩ Op.unmountOwner = (⟨c + 1, some ld⟩, []) := by
  simp [step, unmountOwner, beforeUnmountHook]

theorem step_unmountOwner_final (ld : LogicDisposables) :
    step ⟨1, some ld⟩ Op.unmountOwner = (⟨0, none⟩, drainEvents ld.disposables) := by
  simp [step, unmountOwner, beforeUnmountHook]

theorem runOps_replicate_unmount (k : Nat) (ld : LogicDisposables) :
    runOps ⟨k + 1, some ld⟩ (List.replicate k Op.unmountOwner) = (⟨1, some ld⟩, []) := by
  induction k with
  | zero => rfl
  | succ n ih =>
    show runOps ⟨n + 2, some ld⟩ (Op.unmountOwner :: List.replicate n Op.unmountOwner) = _
    simp [runOps, step_unmountOwner_intermediate, ih]

end KeaDisposables

namespace KeaDisposables

/-! Injectivity of the auto-generated keys.  `autoKey n = "__auto_" ++ Nat.repr n`,
so we prove that the decimal representation produced by `Nat.repr` is
injective by exhibiting its digit list explicitly and decoding it back. -/

/-- The decimal digit list of a natural number, most significant digit
first (the list `Nat.toDigits 10` produces). -/
def decDigits (n : Nat) : List Char :=
  if n < 10 then [Nat.digitChar n]
  else decDigits (n / 10) ++ [Nat.digitChar (n % 10)]
termination_by n
decreasing_by exact Nat.div_lt_self (by omega) (by omega)

theorem digitChar_toNat {n : Nat} (h : n < 10) : (Nat.digitChar n).toNat = 48 + n := by
  interval_cases n <;> rfl

theorem toDigitsCore_eq_decDigits :
    ∀ (fuel n : Nat) (ds : List Char), n < fuel →
      Nat.toDigitsCore 10 fuel n ds = decDigits n ++ ds := by
  intro fuel
  induction fuel with
  | zero => omega
  | succ f ih =>
    intro n ds h
    by_cases h10 : n / 10 = 0
    · have hn : n < 10 := by omega
      rw [decDigits]
      simp [Nat.toDigitsCore, h10, hn, Nat.mod_eq_of_lt hn]
    · have hn : ¬ n < 10 := fun hlt => h10 (Nat.div_eq_of_lt hlt)
      have hrec : n / 10 < f := by
        have h1 : n / 10 < n := Nat.div_lt_self (by omega) (by omega)
        omega
      rw [decDigits]
      simp only [Nat.toDigitsCore, h10, if_false, hn, if_neg hn]
      rw [ih (n / 10) _ hrec]
      simp

theorem decDigits_foldl (n : Nat) :
    ∀ a : Nat, (decDigits n).foldl (fun a c => 10 * a + (c.toNat - 48)) a =
      a * 10 ^ (decDigits n).length + n := by
  induction n using Nat.strong_induction_on with
  | _ n ih =>
    intro a
    by_cases h : n < 10
    · rw [decDigits, if_pos h]
      simp only [List.foldl, digitChar_toNat h, List.length_cons, List.length_nil,
        pow_one, pow_zero]
      omega
    · rw [decDigits, if_neg h]
      rw [List.foldl_append]
      rw [ih (n / 10) (Nat.div_lt_self (by omega) (by omega)) a]
      have hm : n % 10 < 10 := Nat.mod_lt _ (by omega)
      simp only [List.foldl, digitChar_toNat hm, List.length_append, List.length_cons,
        List.length_nil]
      have hL : ∀ L : Nat, 10 * (a * 10 ^ L + n / 10) + (48 + n % 10 - 48) =
          a * 10 ^ (L + 1) + n := by
        intro L
        rw [pow_succ]
        have h1 : 10 * (a * 10 ^ L + n / 10) = a * (10 ^ L * 10) + 10 * (n / 10) := by ring
        rw [h1, Nat.add_assoc]
        congr 1
        omega
      exact hL (decDigits (n / 10)).length

theorem decDigits_inj {m n : Nat} (h : decDigits m = decDigits n) : m = n := by
  have hm := decDigits_foldl m 0
  have hn := decDigits_foldl n 0
  rw [h] at hm
  omega

theorem repr_eq_decDigits (n : Nat) : Nat.repr n = (decDigits n).asString := by
  show (Nat.toDigits 10 n).asString = (decDigits n).asString
  rw [Nat.toDigits, toDigitsCore_eq_decDigits (n + 1) n [] (Nat.lt_succ_self n)]
  simp

theorem nat_repr_inj {m n : Nat} (h : Nat.repr m = Nat.repr n) : m = n := by
  rw [repr_eq_decDigits, repr_eq_decDigits] at h
  exact decDigits_inj (congrArg String.data h)

theorem autoKey_inj {m n : Nat} (h : autoKey m = autoKey n) : m = n := by
  unfold autoKey at h
  have hd := congrArg String.data h
  rw [String.data_append, String.data_append] at hd
  have : (Nat.repr m).data = (Nat.repr n).data := List.append_cancel_left hd
  exact nat_repr_inj (String.ext this)

end KeaDisposables

namespace KeaDisposables

/-- The registry contents produced by a run of keyless `add` calls: one entry
per setup, keyed `autoKey c`, `autoKey (c+1)`, … in insertion order. -/
def autoEntries (c : Nat) : List SetupFn → DMap
  | [] => []
  | s :: rest => (autoKey c, s.teardown) :: autoEntries (c + 1) rest

theorem autoEntries_append (c : Nat) (l1 l2 : List SetupFn) :
    autoEntries c (l1 ++ l2) = autoEntries c l1 ++ autoEntries (c + l1.length) l2 := by
  induction l1 generalizing c with
  | nil => simp [autoEntries]
  | cons s rest ih =>
    show (autoKey c, s.teardown) :: autoEntries (c + 1) (rest ++ l2) = _
    rw [ih (c + 1)]
    simp only [autoEntries, List.cons_append, List.length_cons]
    have h1 : c + 1 + rest.length = c + (rest.length + 1) := by omega
    rw [h1]

theorem autoEntries_not_has (l : List SetupFn) :
    ∀ c d, (d < c ∨ c + l.length ≤ d) → mapHas (autoEntries c l) (autoKey d) = false := by
  induction l with
  | nil => intro c d _; rfl
  | cons s rest ih =>
    intro c d h
    simp only [List.length_cons] at h
    have hne : autoKey c ≠ autoKey d := fun he => by
      have := autoKey_inj he
      omega
    simp only [autoEntries, mapHas, List.any_cons]
    rw [show ((autoKey c, s.teardown).1 == autoKey d) = false by simpa using hne]
    simpa [mapHas] using ih (c + 1) d (by omega)

theorem not_mem_keys_of_not_mapHas {m : DMap} {k : String}
    (h : mapHas m k = false) : k ∉ m.map Prod.fst := by
  intro hmem
  rcases List.mem_map.mp hmem with ⟨p, hp, hkey⟩
  have htrue : m.any (fun q => q.1 == k) = true :=
    List.any_eq_true.mpr ⟨p, hp, by simp [hkey]⟩
  rw [mapHas] at h
  rw [h] at htrue
  exact Bool.false_ne_true htrue

theorem autoEntries_keys_nodup (l : List SetupFn) :
    ∀ c, ((autoEntries c l).map Prod.fst).Nodup := by
  induction l with
  | nil => intro c; simp [autoEntries]
  | cons s rest ih =>
    intro c
    simp only [autoEntries, List.map_cons, List.nodup_cons]
    exact ⟨not_mem_keys_of_not_mapHas
      (autoEntries_not_has rest (c + 1) c (Or.inl (by omega))), ih (c + 1)⟩

theorem autoEntries_teardown_map (l : List SetupFn) :
    ∀ c, (autoEntries c l).map (fun p => Event.teardownInvoked p.2.id) =
      l.map (fun s => Event.teardownInvoked s.teardown.id) := by
  induction l with
  | nil => intro c; rfl
  | cons s rest ih => intro c; simp [autoEntries, ih (c + 1)]

theorem autoEntries_length (l : List SetupFn) :
    ∀ c, (autoEntries c l).length = l.length := by
  induction l with
  | nil => intro c; rfl
  | cons s rest ih => intro c; simp [autoEntries, ih (c + 1)]

theorem runOps_keyless_adds (setups : List SetupFn)
    (hok : ∀ s ∈ setups, s.throws = false) :
    ∀ (pre : List SetupFn) (m : Nat),
      runOps ⟨m, some ⟨autoEntries 0 pre, pre.length⟩⟩
          (setups.map (fun s => Op.add s none)) =
        (⟨m, some ⟨autoEntries 0 (pre ++ setups), pre.length + setups.length⟩⟩,
         setups.map (fun s => Event.setupRun s.id)) := by
  induction setups with
  | nil => intro pre m; simp [runOps]
  | cons s rest ih =>
    intro pre m
    have hs : s.throws = false := hok s (List.mem_cons_self s rest)
    have hrest : ∀ s2 ∈ rest, s2.throws = false :=
      fun s2 h2 => hok s2 (List.mem_cons_of_mem s h2)
    have hstep : step ⟨m, some ⟨autoEntries 0 pre, pre.length⟩⟩ (Op.add s none) =
        (⟨m, some ⟨autoEntries 0 (pre ++ [s]), pre.length + 1⟩⟩,
         [Event.setupRun s.id]) := by
      have hfresh : mapHas (autoEntries 0 pre) (autoKey pre.length) = false :=
        autoEntries_not_has pre 0 pre.length (Or.inr (by omega))
      simp only [step, add, hs, Bool.false_eq_true, if_false, keyTruthy,
        Bool.false_and, mapSet_of_not_mapHas _ hfresh, autoEntries_append,
        autoEntries, List.length_nil]
      simp [autoEntries]
    have hih := ih hrest (pre ++ [s]) m
    simp only [List.length_append, List.length_cons, List.length_nil, Nat.zero_add,
      List.append_assoc, List.singleton_append] at hih
    simp only [List.map_cons, runOps, hstep, hih]
    have h1 : pre.length + 1 + rest.length = pre.length + (rest.length + 1) := by omega
    simp [h1, List.length_cons]

end KeaDisposables

namespace KeaDisposables

theorem invokeTeardownCaught_filter (t : Teardown) (msg : String) :
    (invokeTeardownCaught t msg).filter isTeardownEvent = [.teardownInvoked t.id] := by
  by_cases h : t.throws <;> simp [invokeTeardownCaught, h, isTeardownEvent, List.filter]

theorem invokeTeardownCaught_head (t : Teardown) (msg : String) (rest : List Event) :
    (invokeTeardownCaught t msg ++ rest).head? = some (.teardownInvoked t.id) := by
  by_cases h : t.throws <;> simp [invokeTeardownCaught, h]

theorem invokeTeardownCaught_count_setup (t : Teardown) (msg : String) (i : Nat) :
    (invokeTeardownCaught t msg).count (Event.setupRun i) = 0 := by
  by_cases h : t.throws <;> simp [invokeTeardownCaught, h, List.count_cons, List.count_nil]

/-- Whether the owner currently holds a live entry under `k`
(`logicData && logicData.disposables.has(k)` in the source). -/
def recordHas (st : OwnerState) (k : String) : Bool :=
  match st.record with
  | none => false
  | some ld => mapHas ld.disposables k

/-- C1 counterexample: the claim fails at the reachable key `""`.  From a
fresh mount, `add(s1, "")` stores a live entry under `""`; a second
`add(s2, "")` skips the replacement branch (the source's `if (key && ...)`
is a JS truthiness test and `""` is falsy), so the trace holds no teardown
invocation at all and the old entry is silently overwritten. -/
theorem add_empty_key_skips_teardown :
    runOps ⟨0, none⟩ [Op.mountOwner, Op.add ⟨1, false, ⟨11, false⟩⟩ (some ""),
        Op.add ⟨2, false, ⟨22, false⟩⟩ (some "")] =
      (⟨1, some ⟨[("", ⟨22, false⟩)], 0⟩⟩, [Event.setupRun 1, Event.setupRun 2]) ∧
    mapGet ([("", ⟨11, false⟩)] : DMap) "" = some ⟨11, false⟩ ∧
    ((add ⟨1, some ⟨[("", ⟨11, false⟩)], 0⟩⟩ ⟨2, false, ⟨22, false⟩⟩ (some "")).2.1).filter
        isTeardownEvent = [] := by
  refine ⟨?_, ?_, ?_⟩ <;> decide

/-- C1 (amended): for every mounted owner and every key `k` other than the
empty string, calling `add(setup2, k)` when a live entry already exists
under `k` invokes the existing entry's teardown exactly once, strictly
before `setup2` runs, and afterwards the registry holds the entry produced
by `setup2` under `k` (the old entry is gone).  At `k = ""` the source's
truthiness guard skips the teardown (see the counterexample). -/
theorem add_existing_key_replaces (st : OwnerState) (ld : LogicDisposables)
    (k : String) (old : Teardown) (setup2 : SetupFn)
    (hrec : st.record = some ld)
    (hk : k ≠ "")
    (hold : mapGet ld.disposables k = some old)
    (hok : setup2.throws = false) :
    (add st setup2 (some k)).2.1 =
      invokeTeardownCaught old ("[KEA] Previous disposable cleanup failed for key " ++ k)
        ++ [Event.setupRun setup2.id] ∧
    ((add st setup2 (some k)).2.1).filter isTeardownEvent = [Event.teardownInvoked old.id] ∧
    ((add st setup2 (some k)).2.1).head? = some (Event.teardownInvoked old.id) ∧
    ∃ ld', (add st setup2 (some k)).1.record = some ld' ∧
      mapGet ld'.disposables k = some setup2.teardown := by
  have hhas : mapHas ld.disposables k = true := mapHas_of_mapGet hold
  have hkt : keyTruthy (some k) = true := by simp [keyTruthy, hk]
  have hev : (add st setup2 (some k)).2.1 =
      invokeTeardownCaught old ("[KEA] Previous disposable cleanup failed for key " ++ k)
        ++ [Event.setupRun setup2.id] := by
    simp [add, hrec, hkt, hhas, hold, hok]
  refine ⟨hev, ?_, ?_, ?_⟩
  · rw [hev, List.filter_append, invokeTeardownCaught_filter]
    simp [isTeardownEvent, List.filter]
  · rw [hev]
    exact invokeTeardownCaught_head old _ _
  · refine ⟨⟨mapSet ld.disposables k setup2.teardown, ld.keyCounter⟩, ?_, ?_⟩
    · simp [add, hrec, hkt, hhas, hold, hok]
    · exact mapGet_mapSet ld.disposables k setup2.teardown

theorem add_existing_key_replaces_witness :
    ((add ⟨1, some ⟨[("k", ⟨11, false⟩)], 0⟩⟩ ⟨2, false, ⟨22, false⟩⟩ (some "k")).2.1).head?
        = some (Event.teardownInvoked 11) ∧
    ∃ ld', (add ⟨1, some ⟨[("k", ⟨11, false⟩)], 0⟩⟩ ⟨2, false, ⟨22, false⟩⟩
        (some "k")).1.record = some ld' ∧
      mapGet ld'.disposables "k" = some ⟨22, false⟩ := by
  have h := add_existing_key_replaces ⟨1, some ⟨[("k", ⟨11, false⟩)], 0⟩⟩
    ⟨[("k", ⟨11, false⟩)], 0⟩ "k" ⟨11, false⟩ ⟨2, false, ⟨22, false⟩⟩ rfl (by decide)
    (by decide) rfl
  exact ⟨h.2.2.1, h.2.2.2⟩

/-- C2: `dispose(k)` returns true iff an entry for `k` existed at call time;
when it did, the entry's teardown is invoked and the entry is removed, and
the result is true even when the teardown throws; when no entry existed,
`dispose` returns false and changes nothing. -/
theorem dispose_spec (st : OwnerState) (k : String) :
    ((dispose st k).2.2 = true ↔ recordHas st k = true) ∧
    (recordHas st k = false → (dispose st k).1 = st ∧ (dispose st k).2.1 = []) ∧
    (∀ ld t, st.record = some ld → mapGet ld.disposables k = some t →
      (dispose st k).2.1.filter isTeardownEvent = [Event.teardownInvoked t.id] ∧
      (∃ ld', (dispose st k).1.record = some ld' ∧ mapHas ld'.disposables k = false) ∧
      (dispose st k).2.2 = true) := by
  match hrec : st.record with
  | none =>
    refine ⟨?_, ?_, ?_⟩
    · simp [dispose, hrec, recordHas]
    · intro _; simp [dispose, hrec]
    · intro ld t h1 _; cases h1
  | some ld =>
    by_cases hhas : mapHas ld.disposables k = true
    · refine ⟨?_, ?_, ?_⟩
      · simp [dispose, hrec, hhas, recordHas]
      · intro hfalse
        simp only [recordHas, hrec] at hfalse
        rw [hfalse] at hhas
        cases hhas
      · intro ld2 t h1 h2
        injection h1 with h1
        subst h1
        refine ⟨?_, ⟨⟨mapDelete ld.disposables k, ld.keyCounter⟩, ?_, ?_⟩, ?_⟩
        · simp [dispose, hrec, hhas, h2, invokeTeardownCaught_filter]
        · simp [dispose, hrec, hhas]
        · exact mapHas_mapDelete ld.disposables k
        · simp [dispose, hrec, hhas]
    · rw [Bool.not_eq_true] at hhas
      refine ⟨?_, ?_, ?_⟩
      · simp [dispose, hrec, hhas, recordHas]
      · intro _; simp [dispose, hrec, hhas]
      · intro ld2 t h1 h2
        injection h1 with h1
        subst h1
        rw [mapGet_of_not_mapHas hhas] at h2
        cases h2

theorem dispose_spec_witness :
    (dispose ⟨1, some ⟨[("k", ⟨11, true⟩)], 0⟩⟩ "k").2.2 = true ∧
    (dispose ⟨1, some ⟨[("k", ⟨11, true⟩)], 0⟩⟩ "nope").1
      = ⟨1, some ⟨[("k", ⟨11, true⟩)], 0⟩⟩ := by
  constructor
  · exact (dispose_spec ⟨1, some ⟨[("k", ⟨11, true⟩)], 0⟩⟩ "k").2.2
      ⟨[("k", ⟨11, true⟩)], 0⟩ ⟨11, true⟩ rfl (by decide) |>.2.2
  · exact ((dispose_spec ⟨1, some ⟨[("k", ⟨11, true⟩)], 0⟩⟩ "nope").2.1 (by decide)).1

/-- C6: for every `add` call on a mounted owner, `setup()` is invoked
synchronously within the `add` call (exactly once, as its final event), and
if this first setup invocation throws, the exception propagates to the
caller of `add` (not caught, not logged, nothing registered). -/
theorem add_setup_synchronous (st : OwnerState) (ld : LogicDisposables)
    (setup : SetupFn) (key : Option String)
    (hrec : st.record = some ld) :
    (add st setup key).2.1.count (Event.setupRun setup.id) = 1 ∧
    (add st setup key).2.1.getLast? = some (Event.setupRun setup.id) ∧
    (setup.throws = true → (add st setup key).2.2 = true ∧
      ∃ ld', (add st setup key).1.record = some ld' ∧
        ld'.disposables = ld.disposables) ∧
    (setup.throws = false → (add st setup key).2.2 = false) := by
  have hev : ∃ pre, ((add st setup key).2.1 = pre ++ [Event.setupRun setup.id] ∧
      pre.count (Event.setupRun setup.id) = 0) := by
    match key with
    | none =>
      refine ⟨[], ?_, by simp⟩
      by_cases hthr : setup.throws <;> simp [add, hrec, hthr, keyTruthy]
    | some k =>
      by_cases hkt : keyTruthy (some k) = true
      · by_cases hhas : mapHas ld.disposables k = true
        · match hget : mapGet ld.disposables k with
          | some prev =>
            refine ⟨invokeTeardownCaught prev
              ("[KEA] Previous disposable cleanup failed for key " ++ k), ?_,
              invokeTeardownCaught_count_setup prev _ _⟩
            by_cases hthr : setup.throws <;> simp [add, hrec, hkt, hhas, hget, hthr]
          | none =>
            refine ⟨[], ?_, by simp⟩
            by_cases hthr : setup.throws <;> simp [add, hrec, hkt, hhas, hget, hthr]
        · rw [Bool.not_eq_true] at hhas
          refine ⟨[], ?_, by simp⟩
          by_cases hthr : setup.throws <;> simp [add, hrec, hkt, hhas, hthr]
      · rw [Bool.not_eq_true] at hkt
        refine ⟨[], ?_, by simp⟩
        by_cases hthr : setup.throws <;> simp [add, hrec, hkt, hthr]
  obtain ⟨pre, hev, hcnt⟩ := hev
  refine ⟨?_, ?_, ?_, ?_⟩
  · rw [hev, List.count_append, hcnt]
    simp [List.count_cons]
  · rw [hev]
    simp
  · intro hthr
    refine ⟨by simp [add, hrec, hthr], ?_⟩
    match key with
    | none => exact ⟨⟨ld.disposables, ld.keyCounter + 1⟩, by simp [add, hrec, hthr], rfl⟩
    | some k => exact ⟨⟨ld.disposables, ld.keyCounter⟩, by simp [add, hrec, hthr], rfl⟩
  · intro hthr
    simp [add, hrec, hthr]

theorem add_setup_synchronous_witness :
    (add ⟨1, some ⟨[], 0⟩⟩ ⟨3, true, ⟨33, false⟩⟩ none).2.1.getLast?
        = some (Event.setupRun 3) ∧
    (add ⟨1, some ⟨[], 0⟩⟩ ⟨3, true, ⟨33, false⟩⟩ none).2.2 = true := by
  have h := add_setup_synchronous ⟨1, some ⟨[], 0⟩⟩ ⟨[], 0⟩ ⟨3, true, ⟨33, false⟩⟩ none rfl
  exact ⟨h.2.1, (h.2.2.1 rfl).1⟩

/-- C10: when the owner's registry record is absent from the plugin context
(before the first mount or after the final unmount), `add` returns without
invoking `setup` and without registering anything, and `dispose` returns
false for every key. -/
theorem absent_record_noop (st : OwnerState) (h : st.record = none)
    (setup : SetupFn) (key : Option String) (k : String) :
    add st setup key = (st, [], false) ∧ dispose st k = (st, [], false) := by
  constructor <;> simp [add, dispose, h]

theorem absent_record_noop_witness :
    add ⟨0, none⟩ ⟨1, false, ⟨11, false⟩⟩ none = (⟨0, none⟩, [], false) ∧
    dispose ⟨0, none⟩ "k" = (⟨0, none⟩, [], false) :=
  absent_record_noop ⟨0, none⟩ rfl ⟨1, false, ⟨11, false⟩⟩ none "k"

end KeaDisposables

namespace KeaDisposables

theorem runOps_replicate_unmount_partial :
    ∀ (j n : Nat) (ld : LogicDisposables), j < n →
      runOps ⟨n, some ld⟩ (List.replicate j Op.unmountOwner) = (⟨n - j, some ld⟩, []) := by
  intro j
  induction j with
  | zero => intro n ld _; simp [runOps]
  | succ i ih =>
    intro n ld h
    obtain ⟨m, rfl⟩ : ∃ m, n = m + 2 := ⟨n - 2, by omega⟩
    show runOps ⟨m + 2, some ld⟩ (Op.unmountOwner :: List.replicate i Op.unmountOwner) = _
    rw [runOps, step_unmountOwner_intermediate, ih (m + 1) ld (by omega)]
    have h1 : m + 1 - i = m + 2 - (i + 1) := by omega
    rw [h1]
    rfl

theorem autoEntries_snd (l : List SetupFn) :
    ∀ c, (autoEntries c l).map Prod.snd = l.map (fun s => s.teardown) := by
  induction l with
  | nil => intro c; rfl
  | cons s rest ih => intro c; simp [autoEntries, ih (c + 1)]

/-- C3: for an owner with mount count `n > 0`, each of the first `n - 1`
deactivations invokes zero teardowns and leaves the registry unchanged; the
`n`-th deactivation (count transitioning to exactly 0) invokes every
remaining entry's teardown exactly once, in insertion order, and clears the
owner's registry record. -/
theorem mount_counter_gates_drain (n : Nat) (ld : LogicDisposables) (hn : 0 < n) :
    (∀ j, j < n → runOps ⟨n, some ld⟩ (List.replicate j Op.unmountOwner)
        = (⟨n - j, some ld⟩, [])) ∧
    runOps ⟨n, some ld⟩ (List.replicate n Op.unmountOwner)
        = (⟨0, none⟩, drainEvents ld.disposables) ∧
    (drainEvents ld.disposables).filter isTeardownEvent
        = ld.disposables.map (fun p => Event.teardownInvoked p.2.id) := by
  refine ⟨fun j hj => runOps_replicate_unmount_partial j n ld hj, ?_,
    drainEvents_filter_teardown ld.disposables⟩
  obtain ⟨m, rfl⟩ : ∃ m, n = m + 1 := ⟨n - 1, by omega⟩
  have hsplit : List.replicate (m + 1) Op.unmountOwner
      = List.replicate m Op.unmountOwner ++ [Op.unmountOwner] := by
    rw [List.replicate_succ' m Op.unmountOwner]
  rw [hsplit, runOps_append, runOps_replicate_unmount m ld]
  show ((runOps ⟨1, some ld⟩ [Op.unmountOwner]).1,
    [] ++ (runOps ⟨1, some ld⟩ [Op.unmountOwner]).2) = _
  rw [show runOps ⟨1, some ld⟩ [Op.unmountOwner]
      = (⟨0, none⟩, drainEvents ld.disposables) by
    rw [runOps, step_unmountOwner_final]
    simp [runOps]]
  simp

theorem mount_counter_gates_drain_witness :
    runOps ⟨2, some ⟨[("k", ⟨11, false⟩)], 1⟩⟩ (List.replicate 1 Op.unmountOwner)
        = (⟨1, some ⟨[("k", ⟨11, false⟩)], 1⟩⟩, []) ∧
    runOps ⟨2, some ⟨[("k", ⟨11, false⟩)], 1⟩⟩ (List.replicate 2 Op.unmountOwner)
        = (⟨0, none⟩, [Event.teardownInvoked 11]) := by
  have h := mount_counter_gates_drain 2 ⟨[("k", ⟨11, false⟩)], 1⟩ (by decide)
  exact ⟨h.1 1 (by decide), h.2.1⟩

/-- C4: during a final-unmount drain, if some entry's teardown throws, every
other entry's teardown still runs (each entry's teardown is invoked exactly
once, in insertion order), and exactly one log record is emitted for each
failing teardown. -/
theorem drain_error_isolation (ld : LogicDisposables) (e : String × Teardown)
    (_he : e ∈ ld.disposables) (_hthrow : e.2.throws = true) :
    (step ⟨1, some ld⟩ Op.unmountOwner).2 = drainEvents ld.disposables ∧
    (drainEvents ld.disposables).filter isTeardownEvent
        = ld.disposables.map (fun p => Event.teardownInvoked p.2.id) ∧
    (drainEvents ld.disposables).countP isLogEvent
        = ld.disposables.countP (fun p => p.2.throws) :=
  ⟨by rw [step_unmountOwner_final], drainEvents_filter_teardown ld.disposables,
    drainEvents_count_log ld.disposables⟩

theorem drain_error_isolation_witness :
    (drainEvents [("a", ⟨1, false⟩), ("b", ⟨2, true⟩), ("c", ⟨3, false⟩)]).filter
        isTeardownEvent
      = [Event.teardownInvoked 1, Event.teardownInvoked 2, Event.teardownInvoked 3] ∧
    (drainEvents [("a", ⟨1, false⟩), ("b", ⟨2, true⟩), ("c", ⟨3, false⟩)]).countP
        isLogEvent = 1 := by
  have h := drain_error_isolation
    ⟨[("a", ⟨1, false⟩), ("b", ⟨2, true⟩), ("c", ⟨3, false⟩)], 0⟩
    ("b", ⟨2, true⟩) (by decide) rfl
  exact ⟨h.2.1, h.2.2⟩

/-- C7: after an owner's mount count reached 0 and its registry was drained,
a fresh activation starts with a new, empty registry and a reset auto-key
counter, emitting no events — no previously drained entry is reused or
re-invoked. -/
theorem remount_fresh_registry (ld : LogicDisposables) :
    (unmountOwner ⟨1, some ld⟩).1 = ⟨0, none⟩ ∧
    step (unmountOwner ⟨1, some ld⟩).1 Op.mountOwner = (⟨1, some ⟨[], 0⟩⟩, []) := by
  have h1 : (unmountOwner ⟨1, some ld⟩).1 = ⟨0, none⟩ := by
    simp [unmountOwner, beforeUnmountHook]
  refine ⟨h1, ?_⟩
  rw [h1]
  rfl

/-- C5: a sequence of keyless `add` calls on a freshly mounted owner
registers one distinct new entry per call under fresh auto-generated keys
(no replacement, no teardown runs during the adds), and the final drain
invokes all of their teardowns in insertion order. -/
theorem keyless_adds_additive (setups : List SetupFn)
    (hok : ∀ s ∈ setups, s.throws = false) :
    runOps (mountOwner ⟨0, none⟩)
        (setups.map (fun s => Op.add s none) ++ [Op.unmountOwner]) =
      (⟨0, none⟩, setups.map (fun s => Event.setupRun s.id)
        ++ drainEvents (autoEntries 0 setups)) ∧
    (setups.map (fun s => Event.setupRun s.id)).filter isTeardownEvent = [] ∧
    (autoEntries 0 setups).length = setups.length ∧
    ((autoEntries 0 setups).map Prod.fst).Nodup ∧
    (autoEntries 0 setups).map Prod.snd = setups.map (fun s => s.teardown) ∧
    (drainEvents (autoEntries 0 setups)).filter isTeardownEvent
        = setups.map (fun s => Event.teardownInvoked s.teardown.id) := by
  refine ⟨?_, ?_, autoEntries_length setups 0, autoEntries_keys_nodup setups 0,
    autoEntries_snd setups 0, ?_⟩
  · have hmnt : mountOwner ⟨0, none⟩ = ⟨1, some ⟨autoEntries 0 [], ([] : List SetupFn).length⟩⟩ := rfl
    rw [hmnt, runOps_append, runOps_keyless_adds setups hok [] 1]
    simp only [List.nil_append, List.length_nil, Nat.zero_add]
    rw [show runOps ⟨1, some ⟨autoEntries 0 setups, setups.length⟩⟩ [Op.unmountOwner]
        = (⟨0, none⟩, drainEvents (autoEntries 0 setups)) by
      rw [runOps, step_unmountOwner_final]
      simp [runOps]]
  · simp [List.filter_map, isTeardownEvent, Function.comp]
  · rw [drainEvents_filter_teardown, autoEntries_teardown_map setups 0]

theorem keyless_adds_additive_witness :
    runOps (mountOwner ⟨0, none⟩)
        ([⟨1, false, ⟨11, false⟩⟩, ⟨2, false, ⟨22, false⟩⟩].map
          (fun s => Op.add s none) ++ [Op.unmountOwner]) =
      (⟨0, none⟩, [Event.setupRun 1, Event.setupRun 2,
        Event.teardownInvoked 11, Event.teardownInvoked 22]) ∧
    ((autoEntries 0 [⟨1, false, ⟨11, false⟩⟩, ⟨2, false, ⟨22, false⟩⟩]).map
        Prod.fst).Nodup := by
  have h := keyless_adds_additive [⟨1, false, ⟨11, false⟩⟩, ⟨2, false, ⟨22, false⟩⟩]
    (by intro s hs; fin_cases hs <;> rfl)
  refine ⟨?_, h.2.2.2.1⟩
  rw [h.1]
  rfl

end KeaDisposables

namespace KeaDisposables

/-! The repository's visibility-enabled revision of the plugin (the
`add(setup, key?, options?)` signature with a pausable flag, and the
process-wide Visibility Coordinator) is exercised by the repository's test
suite but its implementation module is not present under `src/`; the
definitions below are therefore modelled from the spec (sections 3, 4.1 and
4.3). -/

/-- Modelled from the spec: a Disposable Entry of the missing
visibility-enabled registry — `key`, the original `setup`, the current
`teardown`, and the `pausable` flag (spec section 3). -/
structure VEntry where
  key : String
  setup : SetupFn
  teardown : Teardown
  pausable : Bool
deriving DecidableEq, Repr

/-- Modelled from the spec: the missing visibility-enabled Disposal
Registry — insertion-ordered entries, the auto-key counter, and the side
"paused" list that retains each paused entry's original key and setup
(spec sections 3 and 4.3). -/
structure VRegistry where
  entries : List VEntry
  keyCounter : Nat
  paused : List (String × SetupFn)
deriving DecidableEq, Repr

/-- Modelled from the spec: `Map.set` on the entry list of the missing
visibility-enabled registry. -/
def ventrySet (l : List VEntry) (k : String) (e : VEntry) : List VEntry :=
  if l.any (fun q => q.key == k) then l.map (fun q => if q.key == k then e else q)
  else l ++ [e]

/-- Modelled from the spec: `add(setup, key?, options?)` of the missing
visibility-enabled registry.  `options.pausable` defaults to true; an
existing entry under the same supplied key is torn down first through the
Safe-Invocation Wrapper; `setup()` runs synchronously and its failure
propagates (spec section 4.1). -/
def addV (reg : VRegistry) (setup : SetupFn) (key : Option String) (opts : Option Bool) :
    VRegistry × List Event × Bool :=
  let pausable := opts.getD true
  let dk : String × Nat :=
    match key with
    | some k => (k, reg.keyCounter)
    | none => (autoKey reg.keyCounter, reg.keyCounter + 1)
  let prevEvents : List Event :=
    if key.isSome then
      match reg.entries.find? (fun e => e.key == dk.1) with
      | some prev =>
          invokeTeardownCaught prev.teardown ("teardown failed for key " ++ dk.1)
      | none => []
    else []
  if setup.throws then
    ({ reg with keyCounter := dk.2 }, prevEvents ++ [.setupRun setup.id], true)
  else
    ({ reg with
        entries := ventrySet reg.entries dk.1 ⟨dk.1, setup, setup.teardown, pausable⟩,
        keyCounter := dk.2 },
     prevEvents ++ [.setupRun setup.id], false)

/-- Modelled from the spec: the hidden-edge pause pass of the missing
Visibility Coordinator — drains only `pausable = true` entries (teardowns
through the Safe-Invocation Wrapper), retaining their key and setup in the
"paused" list; non-pausable entries are untouched (spec section 4.3). -/
def hiddenEdge (reg : VRegistry) : VRegistry × List Event :=
  let toPause := reg.entries.filter (fun e => e.pausable)
  ({ entries := reg.entries.filter (fun e => !e.pausable),
     keyCounter := reg.keyCounter,
     paused := toPause.map (fun e => (e.key, e.setup)) },
   (toPause.map (fun e =>
     invokeTeardownCaught e.teardown ("teardown failed for key " ++ e.key))).flatten)

/-- Modelled from the spec: one resumed entry during the visible-edge pass
of the missing Visibility Coordinator — a failing resumed `setup` is logged
and that entry dropped; a successful one is reinserted under its original
key (spec section 4.3). -/
def resumeStep (acc : List VEntry × List Event) (p : String × SetupFn) :
    List VEntry × List Event :=
  if p.2.throws then
    (acc.1, acc.2 ++ [.setupRun p.2.id, .logError ("resume failed for key " ++ p.1)])
  else
    (acc.1 ++ [⟨p.1, p.2, p.2.teardown, true⟩], acc.2 ++ [.setupRun p.2.id])

/-- Modelled from the spec: the visible-edge resume pass of the missing
Visibility Coordinator — re-runs `setup()` for every paused entry in
original order and clears the paused list (spec section 4.3). -/
def visibleEdge (reg : VRegistry) : VRegistry × List Event :=
  let r := reg.paused.foldl resumeStep ([], [])
  ({ entries := reg.entries ++ r.1, keyCounter := reg.keyCounter, paused := [] }, r.2)

theorem resumeStep_foldl_filter (l : List (String × SetupFn)) :
    ∀ acc : List VEntry × List Event,
      ((l.foldl resumeStep acc).1.filter (fun e => !e.pausable))
        = acc.1.filter (fun e => !e.pausable) := by
  induction l with
  | nil => intro acc; rfl
  | cons p rest ih =>
    intro acc
    rw [List.foldl_cons, ih]
    by_cases h : p.2.throws <;> simp [resumeStep, h]

theorem filter_not_pausable_idem (l : List VEntry) :
    (l.filter (fun e => !e.pausable)).filter (fun e => !e.pausable)
      = l.filter (fun e => !e.pausable) := by
  induction l with
  | nil => rfl
  | cons e rest ih =>
    by_cases h : e.pausable <;> simp [List.filter, h, ih]

end KeaDisposables

namespace KeaDisposables

/-- C8: `add` accepts an options argument whose pausable flag defaults to
true; the hidden-edge drains only `pausable = true` entries (through the
Safe-Invocation Wrapper), while `pausable = false` entries remain live
across the hidden interval and are never touched by a subsequent
visible-edge. -/
theorem pausable_default_and_hidden_edge (reg : VRegistry) (setup : SetupFn)
    (key : Option String) :
    addV reg setup key none = addV reg setup key (some true) ∧
    (hiddenEdge reg).1.entries = reg.entries.filter (fun e => !e.pausable) ∧
    (hiddenEdge reg).2 = ((reg.entries.filter (fun e => e.pausable)).map (fun e =>
        invokeTeardownCaught e.teardown ("teardown failed for key " ++ e.key))).flatten ∧
    (hiddenEdge reg).1.paused
        = (reg.entries.filter (fun e => e.pausable)).map (fun e => (e.key, e.setup)) ∧
    (visibleEdge (hiddenEdge reg).1).1.entries.filter (fun e => !e.pausable)
        = reg.entries.filter (fun e => !e.pausable) ∧
    (visibleEdge (hiddenEdge reg).1).2
        = (((reg.entries.filter (fun e => e.pausable)).map (fun e => (e.key, e.setup))).foldl
            resumeStep ([], [])).2 := by
  refine ⟨rfl, rfl, rfl, rfl, ?_, rfl⟩
  show (((hiddenEdge reg).1.entries
      ++ ((hiddenEdge reg).1.paused.foldl resumeStep ([], [])).1).filter
        (fun e => !e.pausable)) = _
  rw [List.filter_append, resumeStep_foldl_filter]
  show ((reg.entries.filter (fun e => !e.pausable)).filter (fun e => !e.pausable)) ++
      (([] : List VEntry).filter (fun e => !e.pausable)) = _
  rw [filter_not_pausable_idem]
  simp

theorem pausable_default_and_hidden_edge_witness :
    hiddenEdge ⟨[⟨"a", ⟨1, false, ⟨11, false⟩⟩, ⟨11, false⟩, true⟩,
        ⟨"b", ⟨2, false, ⟨22, false⟩⟩, ⟨22, false⟩, false⟩], 0, []⟩
      = (⟨[⟨"b", ⟨2, false, ⟨22, false⟩⟩, ⟨22, false⟩, false⟩], 0,
          [("a", ⟨1, false, ⟨11, false⟩⟩)]⟩,
         [Event.teardownInvoked 11]) := by
  have h := pausable_default_and_hidden_edge
    ⟨[⟨"a", ⟨1, false, ⟨11, false⟩⟩, ⟨11, false⟩, true⟩,
      ⟨"b", ⟨2, false, ⟨22, false⟩⟩, ⟨22, false⟩, false⟩], 0, []⟩
    ⟨1, false, ⟨11, false⟩⟩ none
  have h2 := h.2.1
  have h3 := h.2.2.1
  have h4 := h.2.2.2.1
  refine Prod.ext ?_ (by rw [h3]; rfl)
  show (hiddenEdge _).1 = _
  have hk : ((hiddenEdge ⟨[⟨"a", ⟨1, false, ⟨11, false⟩⟩, ⟨11, false⟩, true⟩,
      ⟨"b", ⟨2, false, ⟨22, false⟩⟩, ⟨22, false⟩, false⟩], 0, []⟩).1).keyCounter = 0 := rfl
  rw [show (⟨[⟨"b", ⟨2, false, ⟨22, false⟩⟩, ⟨22, false⟩, false⟩], 0,
      [("a", ⟨1, false, ⟨11, false⟩⟩)]⟩ : VRegistry)
    = ⟨(hiddenEdge _).1.entries, 0, (hiddenEdge _).1.paused⟩ from by rw [h2, h4]; rfl]
  rfl

/-- Modelled from the spec: the state of the missing process-wide Visibility
Coordinator — the set of registered owner identities and the "currently
subscribed" flag for the single environment visibility listener (spec
sections 3 and 4.3). -/
structure Coordinator where
  owners : List String
  subscribed : Bool
deriving DecidableEq, Repr

/-- An attach or detach of the environment visibility listener. -/
inductive CoordEvent where
  | subscribe
  | unsubscribe
deriving DecidableEq, Repr

/-- Modelled from the spec: `register(ownerId)` of the missing Visibility
Coordinator — adds the owner to the tracked set, subscribing to the
environment visibility signal iff this is the first registration overall;
idempotent per owner (spec section 4.3). -/
def registerOwner (c : Coordinator) (i : String) : Coordinator × List CoordEvent :=
  if c.owners.contains i then (c, [])
  else if c.owners.isEmpty then
    ({ owners := c.owners ++ [i], subscribed := true }, [.subscribe])
  else ({ c with owners := c.owners ++ [i] }, [])

/-- Modelled from the spec: `unregister(ownerId)` of the missing Visibility
Coordinator — removes the owner, unsubscribing when the tracked set becomes
empty; a no-op for an owner not currently registered (spec section 4.3). -/
def unregisterOwner (c : Coordinator) (i : String) : Coordinator × List CoordEvent :=
  if c.owners.contains i then
    if (c.owners.filter (fun o => o != i)).isEmpty then
      ({ owners := c.owners.filter (fun o => o != i), subscribed := false }, [.unsubscribe])
    else ({ c with owners := c.owners.filter (fun o => o != i) }, [])
  else (c, [])

/-- A register or unregister request from one owner. -/
inductive CoordOp where
  | registerOwner (i : String)
  | unregisterOwner (i : String)
deriving DecidableEq, Repr

/-- One coordinator step. -/
def coordStep (c : Coordinator) : CoordOp → Coordinator × List CoordEvent
  | .registerOwner i => registerOwner c i
  | .unregisterOwner i => unregisterOwner c i

/-- Running a sequence of coordinator operations, accumulating the
attach/detach trace of the environment listener. -/
def runCoord (c : Coordinator) : List CoordOp → Coordinator × List CoordEvent
  | [] => (c, [])
  | op :: ops =>
    ((runCoord (coordStep c op).1 ops).1, (coordStep c op).2 ++ (runCoord (coordStep c op).1 ops).2)

/-- The coordinator before any owner has registered. -/
def coordInit : Coordinator := ⟨[], false⟩

/-- Strict alternation of attach and detach events, starting from the given
attachment state: the listener is never attached twice without an
intervening detach, and never detached while not attached. -/
def altFrom : Bool → List CoordEvent → Bool
  | _, [] => true
  | false, .subscribe :: t => altFrom true t
  | true, .unsubscribe :: t => altFrom false t
  | _, _ => false

theorem coordStep_preserves (c : Coordinator) (op : CoordOp)
    (hc : c.subscribed = !c.owners.isEmpty) :
    (coordStep c op).1.subscribed = !(coordStep c op).1.owners.isEmpty ∧
    ∀ rest : List CoordEvent,
      altFrom c.subscribed ((coordStep c op).2 ++ rest)
        = altFrom (coordStep c op).1.subscribed rest := by
  match op with
  | .registerOwner i =>
    by_cases hm : i ∈ c.owners
    · constructor
      · simp [coordStep, registerOwner, hm, hc]
      · intro rest; simp [coordStep, registerOwner, hm]
    · by_cases hemp : c.owners = []
      · have hc0 : c.subscribed = false := by rw [hc, hemp]; rfl
        constructor
        · simp [coordStep, registerOwner, hm, hemp]
        · intro rest
          simp only [coordStep, registerOwner, hm, hemp]
          simp [hc0, altFrom]
      · have hie : c.owners.isEmpty = false := by
          cases howners : c.owners with
          | nil => exact absurd howners hemp
          | cons a tl => rfl
        have hc1 : c.subscribed = true := by rw [hc, hie]; rfl
        constructor
        · simp [coordStep, registerOwner, hm, hemp, hc1, hc]
        · intro rest
          simp [coordStep, registerOwner, hm, hemp, hc1]
  | .unregisterOwner i =>
    by_cases hm : i ∈ c.owners
    · have hie : c.owners.isEmpty = false := by
        cases howners : c.owners with
        | nil => rw [howners] at hm; cases hm
        | cons a tl => rfl
      have hc1 : c.subscribed = true := by rw [hc, hie]; rfl
      by_cases hemp : (c.owners.filter (fun o => o != i)).isEmpty = true
      · constructor
        · simp [coordStep, unregisterOwner, hm, hemp]
        · intro rest
          simp [coordStep, unregisterOwner, hm, hemp, hc1, altFrom]
      · rw [Bool.not_eq_true] at hemp
        constructor
        · simp [coordStep, unregisterOwner, hm, hemp, hc1]
        · intro rest
          simp [coordStep, unregisterOwner, hm, hemp, hc1]
    · constructor
      · simp [coordStep, unregisterOwner, hm, hc]
      · intro rest; simp [coordStep, unregisterOwner, hm]

theorem runCoord_invariant (ops : List CoordOp) :
    ∀ c : Coordinator, c.subscribed = !c.owners.isEmpty →
      ((runCoord c ops).1.subscribed = !(runCoord c ops).1.owners.isEmpty ∧
       altFrom c.subscribed (runCoord c ops).2 = true) := by
  induction ops with
  | nil =>
    intro c hc
    refine ⟨hc, ?_⟩
    cases c.subscribed <;> rfl
  | cons op ops ih =>
    intro c hc
    have hstep := coordStep_preserves c op hc
    have hrest := ih (coordStep c op).1 hstep.1
    refine ⟨hrest.1, ?_⟩
    rw [runCoord, hstep.2 (runCoord (coordStep c op).1 ops).2]
    exact hrest.2

/-- C9: over every sequence of owner register/unregister operations, the
environment visibility listener is attached iff the set of registered owners
is non-empty; attach/detach events strictly alternate (attached at most once
regardless of how many owners register); a register emits an attach exactly
when it is the first registration overall, and an unregister emits a detach
exactly when the last owner deregisters. -/
theorem coordinator_listener_invariant (ops : List CoordOp) :
    ((runCoord coordInit ops).1.subscribed
        = !(runCoord coordInit ops).1.owners.isEmpty) ∧
    altFrom false (runCoord coordInit ops).2 = true ∧
    (∀ c i, (registerOwner c i).2 = [CoordEvent.subscribe]
        ↔ (c.owners.contains i = false ∧ c.owners.isEmpty = true)) ∧
    (∀ c i, (unregisterOwner c i).2 = [CoordEvent.unsubscribe]
        ↔ (c.owners.contains i = true
            ∧ (c.owners.filter (fun o => o != i)).isEmpty = true)) := by
  have h := runCoord_invariant ops coordInit rfl
  refine ⟨h.1, h.2, ?_, ?_⟩
  · intro c i
    by_cases hm : i ∈ c.owners
    · simp [registerOwner, hm]
    · by_cases hemp : c.owners = []
      · simp [registerOwner, hm, hemp]
      · simp [registerOwner, hm, hemp]
  · intro c i
    by_cases hm : i ∈ c.owners
    · by_cases hemp : (c.owners.filter (fun o => o != i)).isEmpty = true
      · simp [unregisterOwner, hm, hemp]
      · rw [Bool.not_eq_true] at hemp
        simp [unregisterOwner, hm, hemp]
    · simp [unregisterOwner, hm]

theorem coordinator_listener_invariant_witness :
    altFrom false (runCoord coordInit [CoordOp.registerOwner "a",
        CoordOp.registerOwner "b", CoordOp.unregisterOwner "a",
        CoordOp.unregisterOwner "b"]).2 = true ∧
    (registerOwner coordInit "a").2 = [CoordEvent.subscribe] := by
  have h := coordinator_listener_invariant [CoordOp.registerOwner "a",
    CoordOp.registerOwner "b", CoordOp.unregisterOwner "a", CoordOp.unregisterOwner "b"]
  exact ⟨h.2.1, (h.2.2.1 coordInit "a").mpr ⟨rfl, rfl⟩⟩

end KeaDisposables
